import Mathlib

/-!
Verification of the `cleaner` disk-usage scanner (Rust sources under
`src/src-tauri/src/`): the shared size-aggregating tree
(`tree/node.rs`, `tree/mod.rs`) and the concurrent scanner
(`service.rs`), shallowly embedded as pure Lean functions.

Conventions of the embedding:
* `PathBuf` is a root flag plus the list of normal components
  (`/a/b` is `⟨true, ["a", "b"]⟩`); `components()` yields `RootDir`
  followed by the normal components exactly when `absolute` is true.
* `Arc<RwLock<Node>>` cells are flattened into a rose tree; lock
  acquisition is modelled as always succeeding (`readResult`), which is
  the behaviour of an unpoisoned lock in a sequential execution.
* machine integers (`usize`, `u64`) are modelled as `Nat`: the sizes and
  counters in question only ever grow by small increments and no
  wrap-around behaviour is exercised by the code.
* fallible Rust functions returning `Result<T, String>` become
  `Except String T`.
-/

namespace Cleaner

/-- Model of `std::path::PathBuf`: an optional leading root plus the
normal name components. -/
structure PathBuf where
  absolute : Bool
  comps : List String
deriving DecidableEq, Repr

/-- Model of `PathBuf::file_name`: the last normal component; `None`
for the bare root path. -/
def PathBuf.file_name (p : PathBuf) : Option String :=
  p.comps.getLast?

/-- Model of `Path::display` (used only to build error strings). -/
def PathBuf.display (p : PathBuf) : String :=
  (if p.absolute then "/" else "") ++ String.intercalate "/" p.comps

/-- Appending one component to a path (`path.join(name)`). -/
def PathBuf.join (p : PathBuf) (name : String) : PathBuf :=
  ⟨p.absolute, p.comps ++ [name]⟩

/-- The root path `PathBuf::from("/")`. -/
def rootPathBuf : PathBuf := ⟨true, []⟩

/-- `service.rs` lines 24-31, `struct FileNode`: the per-entry payload
stored at every tree node. -/
structure FileNode where
  path : PathBuf
  size : Nat
  is_directory : Bool
  modified : Option Nat
  created : Option Nat
deriving DecidableEq, Repr

/-- `service.rs` lines 34-42, `FileNode::new`: fresh node with size 0
and no timestamps. -/
def FileNode.new (path : PathBuf) (is_dir : Bool) : FileNode :=
  { path := path, size := 0, is_directory := is_dir, modified := none, created := none }

/-- Model of the part of `std::fs::Metadata` the scanner reads: the
byte length, the directory flag, and the already-converted
seconds-since-epoch timestamps (`metadata.modified()/created()` piped
through `duration_since(UNIX_EPOCH)` as in `obtain_file_node`). -/
structure Metadata where
  len : Nat
  is_dir : Bool
  modified : Option Nat
  created : Option Nat
deriving DecidableEq, Repr

/-- `service.rs` lines 56-59, `struct ScanQueueItem`. -/
structure ScanQueueItem where
  path : PathBuf
  parent : PathBuf
deriving DecidableEq, Repr

/-- `service.rs` lines 61-67, `struct ScanProgress`. -/
structure ScanProgress where
  scaned_files : Nat
  scaned_size : Nat
  current_path : Option PathBuf
  is_scanning : Bool
deriving DecidableEq, Repr

/-- `model.rs` lines 7-19, `struct FileDetails` (the serialized shape;
`children` is attached only by `Scanner::get_file_node`). -/
structure FileDetails where
  name : String
  path : PathBuf
  size : Nat
  is_directory : Bool
  created : Nat
  modified : Nat
  readonly : Bool
  file_type : String
  children : Option (List FileDetails)

/-- `model.rs` lines 22-40, `FileDetails::from(stat: FileNode)`. -/
def FileDetails.fromFileNode (stat : FileNode) : FileDetails :=
  { name := (stat.path.file_name).getD "/"
    path := stat.path
    size := stat.size
    is_directory := stat.is_directory
    created := stat.created.getD 0
    modified := stat.modified.getD 0
    readonly := false
    file_type := "file"
    children := none }

/-- `tree/node.rs` lines 12-18, `struct Node`: payload, descendant
count, and the ordered child list.  The `Arc<RwLock<_>>` parent
back-reference is represented implicitly: every function that walks
parent pointers in the source is rendered here as a rebuild along the
path from the root, which visits exactly the ancestor chain. -/
inductive Node where
  | mk (value : FileNode) (count : Nat) (children : List Node)
deriving Repr

def Node.value : Node → FileNode
  | .mk v _ _ => v

def Node.count : Node → Nat
  | .mk _ c _ => c

def Node.children : Node → List Node
  | .mk _ _ cs => cs

@[simp] theorem Node.value_mk (v : FileNode) (c : Nat) (cs : List Node) :
    (Node.mk v c cs).value = v := rfl

@[simp] theorem Node.count_mk (v : FileNode) (c : Nat) (cs : List Node) :
    (Node.mk v c cs).count = c := rfl

@[simp] theorem Node.children_mk (v : FileNode) (c : Nat) (cs : List Node) :
    (Node.mk v c cs).children = cs := rfl

/-- `tree/node.rs` lines 29-36, `Node::new`: count 0, no children. -/
def Node.new (value : FileNode) : Node :=
  .mk value 0 []

/-- Modelled from the spec: "`total_count` = count + 1".  The method is
called by `Tree::insert_node` (`tree/mod.rs` line 66) but its body is
absent from the sources under `src/`. -/
def Node.total_count (n : Node) : Nat :=
  n.count + 1

/-- Model of `RwLock::read()` in a sequential, unpoisoned execution:
the read always succeeds and yields the guarded value. -/
def readResult (x : α) : Except String α :=
  .ok x

/-- `tree/mod.rs` lines 138-142, the per-child test inside
`Tree::get_node`:

  `child.read().map(|node| node.get_value().path.as_os_str() == path.as_os_str()).is_ok()`

The equality of the stored path with the current component is computed
inside `map`, but `.is_ok()` only reports whether the read succeeded,
so the comparison result is discarded and the test holds for every
readable child. -/
def child_match (child : Node) (comp : String) : Bool :=
  ((readResult child).map
    (fun node => node.value.path == PathBuf.mk false [comp])).isOk

theorem child_match_const (child : Node) (comp : String) : child_match child comp = true := rfl

/-- Path resolution as performed by `Tree::get_node` (`tree/mod.rs`
lines 133-153) once the leading `RootDir` component has been consumed:
at each level, take the first child passing `child_match` (hence the
first child, by `child_match_const`) and continue with the remaining
components. -/
def Node.resolve (n : Node) (comps : List String) : Option Node :=
  match comps with
  | [] => some n
  | comp :: rest =>
    match n.children with
    | [] => none
    | head :: _ => if child_match head comp then head.resolve rest else none

/-- `tree/mod.rs` lines 19-22, `struct Tree`. -/
structure Tree where
  root : Option Node

/-- `tree/mod.rs` lines 25-33, `Tree::from_value` / `from_node`. -/
def Tree.from_value (value : FileNode) : Tree :=
  ⟨some (Node.new value)⟩

/-- `tree/mod.rs` lines 125-155, `Tree::get_node`: the first component
must be `RootDir` (so relative or empty paths resolve to `None`), the
rest are resolved by `Node.resolve`. -/
def Tree.get_node (t : Tree) (key : PathBuf) : Option Node :=
  if key.absolute then
    match t.root with
    | some r => r.resolve key.comps
    | none => none
  else none

/-- The net effect on the tree of `Tree::insert_node` (`tree/mod.rs`
lines 39-73) when the parent resolves at `comps`:

* `Node::add_child` (`tree/node.rs` lines 38-43) appends the new node
  to the parent's children and adds `child.count + 1` to the parent's
  own count;
* the `RootIter` loop then walks from the new node to the root and adds
  `new_node.total_count()` (= `child.count + 1`) to the count of every
  strict ancestor above the direct parent.

Net: every node on the resolution chain gains `child.count + 1`, and
the new node is appended to the resolved parent's children. -/
def Node.insertAt (n : Node) (comps : List String) (child : Node) : Option Node :=
  match comps with
  | [] => some (.mk n.value (n.count + child.total_count) (n.children ++ [child]))
  | comp :: rest =>
    match n.children with
    | [] => none
    | head :: others =>
      if child_match head comp then
        (head.insertAt rest child).map
          (fun head' => .mk n.value (n.count + child.total_count) (head' :: others))
      else none

/-- `tree/mod.rs` lines 39-73, `Tree::insert_node`.  Fails with
"parent not found" when `get_node(parent)` is `None`; otherwise applies
`Node.insertAt` along the resolution chain and returns the new tree
together with (the value of) the freshly created node. -/
def Tree.insert_node (t : Tree) (parent : PathBuf) (value : Node) : Except String (Tree × Node) :=
  if parent.absolute then
    match t.root with
    | none => .error ("parent not found, " ++ parent.display)
    | some r =>
      match r.insertAt parent.comps value with
      | some r' => .ok (⟨some r'⟩, value)
      | none => .error ("parent not found, " ++ parent.display)
  else .error ("parent not found, " ++ parent.display)

/-- `tree/mod.rs` lines 35-37, `Tree::insert`: wrap the value in a
fresh `Node` and insert it. -/
def Tree.insert (t : Tree) (parent : PathBuf) (value : FileNode) : Except String (Tree × Node) :=
  t.insert_node parent (Node.new value)

/-- The retention test of `Tree::remove` (`tree/mod.rs` lines 83-87):

  `child.read().map_or(true, |child| child.get_value().path != node.get_value().path)`

keep a child when its stored path differs from the removed node's
stored path (or when the read fails, which does not happen in this
sequential embedding). -/
def retain_keep (child : Node) (target : Node) : Bool :=
  match readResult child with
  | .ok c => c.value.path != target.value.path
  | .error _ => true

/-- The tree surgery performed by `Tree::remove` (`tree/mod.rs` lines
75-95) when the key resolves at `comps`: the resolved node is located
(first child per level, as in `get_node`), and its parent's children
list is filtered by `retain_keep`.  No count or size field of any node
is modified.  Returns the rebuilt tree together with the resolved
(removed) node; resolving the root (empty `comps`) finds no parent and
leaves the tree unchanged. -/
def Node.removeAt (n : Node) (comps : List String) : Option (Node × Node) :=
  match comps with
  | [] => some (n, n)
  | comp :: rest =>
    match n.children with
    | [] => none
    | head :: others =>
      if child_match head comp then
        match rest with
        | [] =>
          some (.mk n.value n.count ((head :: others).filter (fun c => retain_keep c head)), head)
        | _ :: _ =>
          (head.removeAt rest).map
            (fun res => (.mk n.value n.count (res.1 :: others), res.2))
      else none

/-- `tree/mod.rs` lines 75-95, `Tree::remove`: resolves the key
(failing with "`key` not found" when absent), detaches matching
children from the resolved node's parent via `retain`, and returns the
resolved node.  Ancestor counts and sizes are not touched. -/
def Tree.remove (t : Tree) (key : PathBuf) : Except String (Tree × Node) :=
  if key.absolute then
    match t.root with
    | none => .error (key.display ++ " not found")
    | some r =>
      match r.removeAt key.comps with
      | some res => .ok (⟨some res.1⟩, res.2)
      | none => .error (key.display ++ " not found")
  else .error (key.display ++ " not found")

/-- Folding a sequence of `Tree::insert` calls, keeping the previous
tree when an insert fails (callers in `service.rs` discard the error
and continue). -/
def Tree.insert_all (t : Tree) (ops : List (PathBuf × FileNode)) : Tree :=
  ops.foldl (fun t op =>
    match t.insert op.1 op.2 with
    | .ok res => res.1
    | .error _ => t) t

/-- `service.rs` line 135: `mpsc::channel(1000)` — the capacity of the
bounded progress channel created by `Scanner::start`. -/
def Scanner.progress_channel_capacity : Nat := 1000

/-- `service.rs` line 173: `let _max_count = 10000;` — the iteration
cap of each worker's processing loop. -/
def Scanner.max_count : Nat := 10000

/-- `service.rs` lines 295-301, `Scanner::should_exit_scan`: the exit
test consulted by a worker whose dequeue came back empty.  It inspects
only the queue length; no other state exists for it to consult. -/
def Scanner.should_exit_scan (queue : List ScanQueueItem) : Bool :=
  queue.length == 0

/-- Modelled from the spec: "A worker exits only when queue length is 0
and the counter is 0", where the counter is the atomic outstanding-work
counter ("incremented once per item placed on the queue, decremented
only after that item has been fully expanded").  Neither the counter
nor this condition appears anywhere in the sources under `src/`; this
definition exists only to compare the spec's exit condition with the
implemented `Scanner.should_exit_scan`. -/
def spec_exit_condition (queue_len outstanding : Nat) : Bool :=
  queue_len == 0 && outstanding == 0

/-- `service.rs` lines 309-329, `Scanner::obtain_file_node`: builds the
`FileNode` for a scanned entry.  `size` is `metadata.len()` whether or
not the entry is a directory. -/
def Scanner.obtain_file_node (path : PathBuf) (metadata : Metadata) : FileNode :=
  { path := path
    size := metadata.len
    is_directory := metadata.is_dir
    modified := metadata.modified
    created := metadata.created }

/-- `service.rs` lines 331-351, `Scanner::notify_stats`: bumps the
shared progress (`scaned_files + 1`, `scaned_size = node.size`), sends
a copy (with `current_path` set) through the channel, and — when the
send fails because the receiver is gone — logs via `error!` and falls
through; the function returns `Ok(())` on every path.  `send` stands
for `tx.send(..)` resolved against the channel's current state. -/
def Scanner.notify_stats (node : FileNode)
    (send : ScanProgress → Except String Unit) (prog : ScanProgress) :
    ScanProgress × Except String Unit :=
  let prog := { prog with scaned_files := prog.scaned_files + 1, scaned_size := node.size }
  let new_progress := { prog with current_path := some node.path }
  match send new_progress with
  | .error _ => (prog, .ok ())
  | .ok _ => (prog, .ok ())

/-- `service.rs` lines 353-384, `Scanner::process_directory`: list the
directory (`listing` is the outcome of `fs::read_dir` plus the
`next_entry` drain), turn each entry into a `ScanQueueItem` whose
parent is the directory itself, and append them all to the queue;
propagate the listing error otherwise. -/
def Scanner.process_directory (listing : Except String (List PathBuf))
    (item : PathBuf) (queue : List ScanQueueItem) :
    Except String (List ScanQueueItem) :=
  match listing with
  | .error e => .error e
  | .ok entries => .ok (queue ++ entries.map (fun p => ⟨p, item⟩))

/-- The ancestor walk of `Scanner::update_parent_size` (`service.rs`
lines 389-414): starting from the freshly inserted node, follow the
parent chain and add the new node's `size` to every ancestor's `size`.
`comps` is the resolution chain of the inserted node's parent, so the
ancestors are exactly the nodes on that chain (root included, the
resolved parent included). -/
def Node.add_ancestor_size (n : Node) (comps : List String) (sz : Nat) : Node :=
  match comps with
  | [] => .mk { n.value with size := n.value.size + sz } n.count n.children
  | _ :: rest =>
    match n.children with
    | [] => n
    | head :: others =>
      .mk { n.value with size := n.value.size + sz } n.count
        (head.add_ancestor_size rest sz :: others)

/-- `Scanner::update_parent_size` lifted to the tree: `parentComps` is
the resolution chain of the inserted node's parent. -/
def Scanner.update_parent_size (t : Tree) (parentComps : List String) (sz : Nat) : Tree :=
  match t.root with
  | none => t
  | some r => ⟨some (r.add_ancestor_size parentComps sz)⟩

/-- `service.rs` lines 416-427, `Scanner::_get_file_node`: clone of the
resolved node's `FileNode`, `None` when resolution fails. -/
def Scanner.get_file_node_inner (t : Tree) (path : PathBuf) : Option FileNode :=
  (t.get_node path).map (fun node => node.value)

/-- `service.rs` lines 429-461, `Scanner::get_file_node`: resolve the
path (`None` when resolution fails — not an error), convert the node's
own `FileNode` to `FileDetails`, attach the immediate children
converted likewise and sorted by `b.size.cmp(&a.size)` (descending
size, stable). -/
def Scanner.get_file_node (t : Tree) (path : PathBuf) : Option FileDetails :=
  (t.get_node path).map (fun node =>
    let current := FileDetails.fromFileNode node.value
    let childrens := node.children.map (fun c => FileDetails.fromFileNode c.value)
    let sorted := childrens.mergeSort (fun a b => b.size ≤ a.size)
    { current with children := some sorted })

/-- `service.rs` lines 480-482, `Scanner::is_scanning`: read the flag
from the shared progress. -/
def Scanner.is_scanning (prog : ScanProgress) : Bool :=
  prog.is_scanning

/-- The OS collaborator and channel as seen by one worker: metadata and
directory-listing outcomes per queue item, and the channel send
outcome per message. -/
structure World where
  md : ScanQueueItem → Except String Metadata
  listing : ScanQueueItem → Except String (List PathBuf)
  send : ScanProgress → Except String Unit

/-- `service.rs` lines 249-293, `Scanner::process_scan_item`:
fetch metadata (propagating the error), build the node via
`obtain_file_node`, insert it under `item.parent` (`insert` errors are
silently dropped by the `if let Ok` at line 275); on successful insert
run `update_parent_size` and, when the root lookup succeeds, call
`notify_stats` on the root's `FileNode`, discarding its result; finally
for directories run `process_directory`, propagating its error. -/
def Scanner.process_scan_item (t : Tree) (item : ScanQueueItem)
    (w : World) (queue : List ScanQueueItem) (prog : ScanProgress) :
    Except String (Tree × List ScanQueueItem × ScanProgress) :=
  match w.md item with
  | .error msg => .error msg
  | .ok metadata =>
    let node := Scanner.obtain_file_node item.path metadata
    let inserted := t.insert item.parent node
    let step :=
      match inserted with
      | .ok res =>
        let t2 := Scanner.update_parent_size res.1 item.parent.comps node.size
        match Scanner.get_file_node_inner t2 rootPathBuf with
        | some root => (t2, (Scanner.notify_stats root w.send prog).1)
        | none => (t2, prog)
      | .error _ => (t, prog)
    if node.is_directory then
      match Scanner.process_directory (w.listing item) item.path queue with
      | .error e => .error e
      | .ok q => .ok (step.1, q, step.2)
    else .ok (step.1, queue, step.2)

/-- `service.rs` lines 215-219: on leaving its loop — for any reason —
a worker sets `is_scanning = false` and `current_path = None` on the
shared progress. -/
def Scanner.worker_epilogue (prog : ScanProgress) : ScanProgress :=
  { prog with is_scanning := false, current_path := none }

/-- `service.rs` lines 171-223, one worker's processing loop, run to
completion under a sequential schedule.  `fuel` is `_max_count - count`
(the loop breaks when `count >= _max_count`, i.e. when fuel runs out;
each iteration — item or not — increments `count`).  On `pop_front()`
returning an item: set `current_path`, run `process_scan_item`, and on
its error merely `warn!` and continue.  On an empty pop: exit when
`should_exit_scan` holds for the (still empty) queue, otherwise sleep
50 ms and retry.  Both exits apply `worker_epilogue`.  Returns the
number of dequeued items together with the final tree and progress. -/
def Scanner.worker_run : Nat → Tree → List ScanQueueItem → ScanProgress → World →
    Nat × Tree × ScanProgress
  | 0, t, _, prog, _ => (0, t, Scanner.worker_epilogue prog)
  | fuel + 1, t, queue, prog, w =>
    match queue with
    | [] =>
      if Scanner.should_exit_scan [] then (0, t, Scanner.worker_epilogue prog)
      else Scanner.worker_run fuel t [] prog w
    | item :: rest =>
      let prog := { prog with current_path := some item.path }
      match Scanner.process_scan_item t item w rest prog with
      | .error _ =>
        let r := Scanner.worker_run fuel t rest prog w
        (r.1 + 1, r.2)
      | .ok res =>
        let r := Scanner.worker_run fuel res.1 res.2.1 res.2.2 w
        (r.1 + 1, r.2)

/-- The outcome of `Scanner::start` (`service.rs` lines 134-229) before
the workers are spawned.  The Rust function's return type is
`mpsc::Receiver<ScanProgress>` — there is no error variant — so this
record carries no failure case either. -/
structure StartResult where
  progress : ScanProgress
  queue : List ScanQueueItem

/-- `service.rs` lines 134-160, the pre-spawn phase of
`Scanner::start`: create the channel, set `current_path` to the root's
path, `scaned_size` to the root's size, `is_scanning = true`, then run
`process_directory` on the root and discard its result
(`let _ = Self::process_directory(path, &queue).await;` at line 159).
Whatever happens, the receiver is returned. -/
def Scanner.start_model (root : FileNode)
    (rootListing : Except String (List PathBuf))
    (prog : ScanProgress) (queue : List ScanQueueItem) : StartResult :=
  let prog := { prog with
    current_path := some root.path
    scaned_size := root.size
    is_scanning := true }
  let queue :=
    match Scanner.process_directory rootListing root.path queue with
    | .ok q => q
    | .error _ => queue
  ⟨prog, queue⟩

/-- The three kinds of write a worker performs on the shared progress
while running (used to reason about interleavings of several workers):
`set_current` is lines 192-195 of `service.rs`, `notify` is the update
made by `notify_stats`, and `finish` is the epilogue at lines 215-219. -/
inductive WorkerAction where
  | set_current (p : PathBuf)
  | notify (node : FileNode)
  | finish

/-- Effect of one worker write on the shared progress. -/
def apply_action (prog : ScanProgress) : WorkerAction → ScanProgress
  | .set_current p => { prog with current_path := some p }
  | .notify node => (Scanner.notify_stats node (fun _ => .ok ()) prog).1
  | .finish => Scanner.worker_epilogue prog

/-- The count invariant stated by the spec: every node's `count` equals
the sum of `total_count(child) = count(child) + 1` over its immediate
children, recursively. -/
inductive Node.WF : Node → Prop where
  | mk : ∀ (v : FileNode) (count : Nat) (children : List Node),
      count = (children.map (fun c => c.count + 1)).sum →
      (∀ c ∈ children, Node.WF c) →
      Node.WF (.mk v count children)

/-- The count invariant lifted to a tree. -/
def Tree.WF (t : Tree) : Prop :=
  ∀ r, t.root = some r → Node.WF r

/-! ## Concrete fixtures used by counterexamples and witnesses -/

/-- The root `FileNode` the scanner starts from (`Scanner::new`). -/
def fnRoot : FileNode := FileNode.new rootPathBuf true

/-- An all-zero progress snapshot (`Scanner::new`). -/
def prog0 : ScanProgress := ⟨0, 0, none, false⟩

/-- The scanner's initial tree: a lone root node. -/
def t0 : Tree := Tree.from_value fnRoot

def fnA : FileNode := { path := ⟨true, ["a"]⟩, size := 1, is_directory := false, modified := none, created := none }

def fnB : FileNode := { path := ⟨true, ["b"]⟩, size := 2, is_directory := false, modified := none, created := none }

def fnX : FileNode := { path := ⟨true, ["x"]⟩, size := 3, is_directory := false, modified := none, created := none }

def fnY : FileNode := { path := ⟨true, ["y"]⟩, size := 4, is_directory := false, modified := none, created := none }

/-- Root with two children `a`, `b` (in that insertion order). -/
def tAB : Tree := t0.insert_all [(rootPathBuf, fnA), (rootPathBuf, fnB)]

/-- Root with a single child `x`. -/
def tX : Tree := t0.insert_all [(rootPathBuf, fnX)]

def itemA : ScanQueueItem := ⟨⟨true, ["a"]⟩, rootPathBuf⟩

/-- A world whose filesystem calls all fail. -/
def worldErr : World := ⟨fun _ => .error "EACCES", fun _ => .error "EACCES", fun _ => .ok ()⟩

/-- A world with readable files but a closed progress channel. -/
def worldClosed : World :=
  ⟨fun _ => .ok ⟨10, false, none, none⟩, fun _ => .ok [], fun _ => .error "channel closed"⟩

/-! ## Helper lemmas about the worker loop -/

theorem worker_run_processed_le (fuel : Nat) :
    ∀ t q prog w, (Scanner.worker_run fuel t q prog w).1 ≤ fuel := by
  induction fuel with
  | zero => intro t q prog w; simp [Scanner.worker_run]
  | succ n ih =>
    intro t q prog w
    cases q with
    | nil => simp [Scanner.worker_run, Scanner.should_exit_scan]
    | cons item rest =>
      simp only [Scanner.worker_run]
      cases Scanner.process_scan_item t item w rest { prog with current_path := some item.path } with
      | error e => simpa using Nat.succ_le_succ (ih ..)
      | ok res => simpa using Nat.succ_le_succ (ih ..)

theorem worker_run_final_progress (fuel : Nat) :
    ∀ t q prog w, (Scanner.worker_run fuel t q prog w).2.2.is_scanning = false ∧
      (Scanner.worker_run fuel t q prog w).2.2.current_path = none := by
  induction fuel with
  | zero => intro t q prog w; simp [Scanner.worker_run, Scanner.worker_epilogue]
  | succ n ih =>
    intro t q prog w
    cases q with
    | nil => simp [Scanner.worker_run, Scanner.should_exit_scan, Scanner.worker_epilogue]
    | cons item rest =>
      simp only [Scanner.worker_run]
      cases Scanner.process_scan_item t item w rest { prog with current_path := some item.path } with
      | error e => simpa using ih ..
      | ok res => simpa using ih ..

theorem apply_action_is_scanning_false (prog : ScanProgress) (a : WorkerAction)
    (h : prog.is_scanning = false) : (apply_action prog a).is_scanning = false := by
  cases a with
  | set_current p => simpa [apply_action]
  | notify node => simpa [apply_action, Scanner.notify_stats]
  | finish => simp [apply_action, Scanner.worker_epilogue]

theorem foldl_apply_action_is_scanning_false (post : List WorkerAction) :
    ∀ prog : ScanProgress, prog.is_scanning = false →
      (post.foldl apply_action prog).is_scanning = false := by
  induction post with
  | nil => intro prog h; simpa
  | cons a rest ih =>
    intro prog h
    exact ih _ (apply_action_is_scanning_false prog a h)

/-! ## Claims -/

/-- Claim C10 (confirmed): every worker's processing loop performs at
most 10,000 dequeue attempts before exiting unconditionally
(`_max_count`), so a single `start()` call processes at most
`concurrency × 10,000` queue items in total (the workers spawned by
`start` are one per `worker_id in 0..concurrency`), regardless of how
many pending items remain on the queue. -/
theorem worker_loop_iteration_bound :
    (∀ t q prog w, (Scanner.worker_run Scanner.max_count t q prog w).1 ≤ Scanner.max_count) ∧
    (∀ (qs : List (List ScanQueueItem)) (t : Tree) (prog : ScanProgress) (w : World),
      (qs.map (fun q => (Scanner.worker_run Scanner.max_count t q prog w).1)).sum
        ≤ qs.length * Scanner.max_count) ∧
    Scanner.max_count = 10000 := by
  refine ⟨fun t q prog w => worker_run_processed_le _ t q prog w, ?_, rfl⟩
  intro qs t prog w
  induction qs with
  | nil => simp
  | cons q rest ih =>
    simp only [List.map_cons, List.sum_cons, List.length_cons, Nat.succ_mul]
    have h1 := worker_run_processed_le Scanner.max_count t q prog w
    omega

/-- Claim C9 (confirmed): each worker, upon exiting its processing loop
for any reason (iteration cap or empty queue), unconditionally sets the
shared progress to `is_scanning = false` and `current_path = None`
(lines 215-219); and since no worker action ever sets `is_scanning`
back to `true`, after the first worker finishes, `is_scanning()`
reports `false` no matter what writes (`current_path` updates, progress
notifications, further finishes) the still-running workers perform. -/
theorem worker_finish_clears_scanning :
    (∀ fuel t q prog w,
        (Scanner.worker_run fuel t q prog w).2.2.is_scanning = false ∧
        (Scanner.worker_run fuel t q prog w).2.2.current_path = none) ∧
    (∀ (prog : ScanProgress) (pre post : List WorkerAction),
        Scanner.is_scanning
          (post.foldl apply_action (apply_action (pre.foldl apply_action prog) .finish)) =
          false) := by
  refine ⟨fun fuel t q prog w => worker_run_final_progress fuel t q prog w, ?_⟩
  intro prog pre post
  apply foldl_apply_action_is_scanning_false
  simp [apply_action, Scanner.worker_epilogue]

/-- Claim C1 (code_bug): the claim requires a worker to exit only when
the queue is empty AND an outstanding-work counter is zero, with a
bounded back-off otherwise.  The code's `should_exit_scan` consults the
queue length alone — the counter does not exist — so a worker whose pop
finds the queue momentarily empty exits immediately (third conjunct:
no sleep, no re-check loop), even in the spec-modelled state
`queue_len = 0, outstanding = 1` where `spec_exit_condition` forbids
exiting. -/
theorem worker_exit_ignores_outstanding_work :
    Scanner.should_exit_scan ([] : List ScanQueueItem) = true ∧
    spec_exit_condition 0 1 = false ∧
    (∀ fuel t prog w,
        Scanner.worker_run (fuel + 1) t [] prog w = (0, t, Scanner.worker_epilogue prog)) := by
  refine ⟨rfl, rfl, ?_⟩
  intro fuel t prog w
  simp [Scanner.worker_run, Scanner.should_exit_scan]

/-- Claim C2, counterexample: the claim says an unreadable scan root is
"surfaced to the caller as a failed start".  With the root listing
failing (`EACCES`), `start` still hands back the receiver in a
no-failure return shape (`StartResult` mirrors the Rust return type
`mpsc::Receiver<ScanProgress>`, which has no error variant): the
progress is set to `is_scanning = true` exactly as on success, and the
listing error is silently discarded, leaving the queue unseeded. -/
theorem start_with_unreadable_root_not_failed :
    (Scanner.start_model fnRoot (.error "EACCES") prog0 []).queue = [] ∧
    (Scanner.start_model fnRoot (.error "EACCES") prog0 []).progress.is_scanning = true :=
  ⟨rfl, rfl⟩

/-- Claim C2 (corrected): `start()` is never surfaced as a failed start
— its return type has no failure variant, and the root-listing error is
discarded (`let _ = Self::process_directory(..)`), so an unreadable
root merely yields a scan over an unseeded queue with
`is_scanning = true`.  Per-entry I/O failures are indeed contained: a
worker whose `process_scan_item` fails (e.g. metadata fetch error) logs
and continues its loop with the remaining queue. -/
theorem start_never_fails_errors_contained :
    (∀ root listing prog queue,
        (Scanner.start_model root listing prog queue).progress.is_scanning = true) ∧
    (∀ root e prog queue,
        (Scanner.start_model root (.error e) prog queue).queue = queue) ∧
    (∀ fuel t item rest prog w e, w.md item = .error e →
        Scanner.worker_run (fuel + 1) t (item :: rest) prog w =
          ((Scanner.worker_run fuel t rest
              { prog with current_path := some item.path } w).1 + 1,
            (Scanner.worker_run fuel t rest
              { prog with current_path := some item.path } w).2)) := by
  refine ⟨fun root listing prog queue => rfl, fun root e prog queue => rfl, ?_⟩
  intro fuel t item rest prog w e h
  simp [Scanner.worker_run, Scanner.process_scan_item, h]

/-- Witness for `start_never_fails_errors_contained`: a worker facing a
metadata error on item `a` consumes the item and keeps looping. -/
theorem start_never_fails_errors_contained_witness :
    Scanner.worker_run 1 t0 [itemA] prog0 worldErr =
      ((Scanner.worker_run 0 t0 []
          { prog0 with current_path := some itemA.path } worldErr).1 + 1,
        (Scanner.worker_run 0 t0 []
          { prog0 with current_path := some itemA.path } worldErr).2) :=
  start_never_fails_errors_contained.2.2 0 t0 itemA [] prog0 worldErr "EACCES" rfl

/-- Claim C8 (confirmed): progress snapshots go over a bounded channel
of capacity exactly 1000; when the receiving side is gone every
`tx.send` failure is swallowed (`notify_stats` returns `Ok(())` and
still applies its progress update), and a worker's loop keeps
processing — a non-empty queue with fuel left always results in the
head item being consumed, never in an abort, whatever the world's send
behaviour. -/
theorem progress_send_failure_swallowed :
    Scanner.progress_channel_capacity = 1000 ∧
    (∀ node e prog,
        (Scanner.notify_stats node (fun _ => .error e) prog).2 = .ok ()) ∧
    (∀ node e prog,
        (Scanner.notify_stats node (fun _ => .error e) prog).1 =
          { prog with scaned_files := prog.scaned_files + 1, scaned_size := node.size }) ∧
    (∀ fuel t q prog w, q ≠ [] → fuel ≠ 0 →
        0 < (Scanner.worker_run fuel t q prog w).1) := by
  refine ⟨rfl, fun node e prog => rfl, fun node e prog => rfl, ?_⟩
  intro fuel t q prog w hq hfuel
  cases fuel with
  | zero => exact absurd rfl hfuel
  | succ n =>
    cases q with
    | nil => exact absurd rfl hq
    | cons item rest =>
      simp only [Scanner.worker_run]
      cases Scanner.process_scan_item t item w rest { prog with current_path := some item.path } with
      | error e => simp
      | ok res => simp

/-- Witness for `progress_send_failure_swallowed`: with the channel
closed (every send fails), a worker still consumes the queued item. -/
theorem progress_send_failure_swallowed_witness :
    0 < (Scanner.worker_run 1 t0 [itemA] prog0 worldClosed).1 :=
  progress_send_failure_swallowed.2.2.2 1 t0 [itemA] prog0 worldClosed
    (by simp) (by simp)

/-- The size walk of `update_parent_size` adds the inserted node's size
to every node on the resolution chain of the parent (helper for the
claim about size aggregation). -/
theorem add_ancestor_size_on_chain (comps : List String) :
    ∀ (n : Node) (sz : Nat), (n.resolve comps).isSome = true →
      ∀ k, k ≤ comps.length →
        ((n.add_ancestor_size comps sz).resolve (comps.take k)).map (fun m => m.value.size) =
          (n.resolve (comps.take k)).map (fun m => m.value.size + sz) := by
  induction comps with
  | nil =>
    intro n sz _ k hk
    cases Nat.le_zero.mp hk
    cases n
    simp [Node.add_ancestor_size, Node.resolve, Node.value]
  | cons c rest ih =>
    intro n sz h k hk
    cases n with
    | mk v cnt cs =>
      cases cs with
      | nil => simp [Node.resolve, Node.children] at h
      | cons head others =>
        have h' : (head.resolve rest).isSome = true := by
          simpa [Node.resolve, Node.children, child_match_const] using h
        cases k with
        | zero =>
          simp [Node.add_ancestor_size, Node.resolve, Node.value, Node.count, Node.children]
        | succ k =>
          have hk' : k ≤ rest.length := Nat.succ_le_succ_iff.mp (by simpa using hk)
          simpa [Node.add_ancestor_size, Node.resolve, Node.children, child_match_const]
            using ih head sz h' k hk'

/-- Claim C6, counterexample: the claim says a directory node
discovered during a scan starts with size 0.  `obtain_file_node`
applied to directory metadata of length 4096 produces a directory node
of size 4096 — `metadata.len()` is used for directories and files
alike. -/
theorem scanned_directory_size_not_zero :
    (Scanner.obtain_file_node ⟨true, ["d"]⟩ ⟨4096, true, none, none⟩).is_directory = true ∧
    (Scanner.obtain_file_node ⟨true, ["d"]⟩ ⟨4096, true, none, none⟩).size = 4096 ∧
    (Scanner.obtain_file_node ⟨true, ["d"]⟩ ⟨4096, true, none, none⟩).size ≠ 0 := by
  refine ⟨rfl, rfl, ?_⟩
  decide

/-- Claim C6 (corrected): every scanned entry's node — directory or not
— is created by `obtain_file_node` with `size = metadata.len()` (so a
directory node starts at its on-disk entry length, not 0), and
`update_parent_size` immediately adds that full size to every node on
the ancestor chain; a directory's size therefore also grows later as
its children are inserted and walk upward. -/
theorem scanned_node_size_is_metadata_len :
    (∀ p md, (Scanner.obtain_file_node p md).size = md.len ∧
        (Scanner.obtain_file_node p md).is_directory = md.is_dir) ∧
    (∀ (n : Node) (comps : List String) (sz : Nat),
        (n.resolve comps).isSome = true →
        ∀ k, k ≤ comps.length →
          ((n.add_ancestor_size comps sz).resolve (comps.take k)).map (fun m => m.value.size) =
            (n.resolve (comps.take k)).map (fun m => m.value.size + sz)) :=
  ⟨fun _ _ => ⟨rfl, rfl⟩, fun n comps sz h k hk => add_ancestor_size_on_chain comps n sz h k hk⟩

/-- Witness for `scanned_node_size_is_metadata_len`: in the root-plus-
child `a` tree, walking the chain of parent `/` with size 5 adds 5 to
the root's recorded size. -/
theorem scanned_node_size_is_metadata_len_witness :
    (((tAB.root.getD (Node.new fnRoot)).add_ancestor_size [] 5).resolve []).map
        (fun m => m.value.size) =
      ((tAB.root.getD (Node.new fnRoot)).resolve []).map (fun m => m.value.size + 5) :=
  scanned_node_size_is_metadata_len.2 (tAB.root.getD (Node.new fnRoot)) [] 5 (by decide)
    0 (by decide)

/-- Claim C7, counterexample: the claim says `get_file_node(path)`
returns `None` when the path is unknown to the tree.  In the tree whose
only nodes are the root `/` and the child with stored path `/x`, the
unknown path `/zzz` still returns `Some`: because `get_node` discards
the per-component comparison (`child_match`), resolution takes the
first child regardless of its name and hands back the `/x` node's
details. -/
theorem get_file_node_unknown_path_some :
    (Scanner.get_file_node tX ⟨true, ["zzz"]⟩).map (fun d => d.path) =
      some ⟨true, ["x"]⟩ ∧
    (⟨true, ["x"]⟩ : PathBuf) ≠ ⟨true, ["zzz"]⟩ := by
  exact ⟨rfl, by decide⟩

/-- Claim C7 (corrected): `get_file_node` returns `None` — an absent
value, never an error — exactly when `get_node`'s resolution fails; and
whenever resolution yields a node, the result carries that node's own
stats with its immediate children attached, sorted by descending size.
However resolution takes the first child at every component (the name
comparison's result is discarded), so a path unknown to the tree can
still resolve to a node. -/
theorem get_file_node_resolution_and_sorting :
    (∀ t p, Scanner.get_file_node t p = none ↔ t.get_node p = none) ∧
    (∀ t p n, t.get_node p = some n → ∃ cs,
        Scanner.get_file_node t p =
          some { FileDetails.fromFileNode n.value with children := some cs } ∧
        cs.Perm (n.children.map (fun c => FileDetails.fromFileNode c.value)) ∧
        cs.Pairwise (fun a b => b.size ≤ a.size)) := by
  constructor
  · intro t p
    simp [Scanner.get_file_node]
  · intro t p n h
    simp only [Scanner.get_file_node, h, Option.map_some']
    refine ⟨_, rfl, List.mergeSort_perm .., ?_⟩
    have hs := List.sorted_mergeSort
      (fun (a b c : FileDetails) (hab : decide (b.size ≤ a.size) = true)
          (hbc : decide (c.size ≤ b.size) = true) => by
        simp only [decide_eq_true_eq] at hab hbc ⊢
        exact le_trans hbc hab)
      (fun (a b : FileDetails) => by
        simp only [Bool.or_eq_true, decide_eq_true_eq]
        exact Nat.le_total b.size a.size)
      (n.children.map (fun c => FileDetails.fromFileNode c.value))
    exact hs.imp (fun hab => by simpa using hab)

/-- Witness for `get_file_node_resolution_and_sorting`: looking up `/x`
in the root-plus-`x` tree yields the `x` node's details with a sorted
(singleton) child list. -/
theorem get_file_node_resolution_and_sorting_witness :
    ∃ cs, Scanner.get_file_node tX ⟨true, ["x"]⟩ =
        some { FileDetails.fromFileNode (Node.new fnX).value with children := some cs } ∧
      cs.Perm ((Node.new fnX).children.map (fun c => FileDetails.fromFileNode c.value)) ∧
      cs.Pairwise (fun a b => b.size ≤ a.size) :=
  get_file_node_resolution_and_sorting.2 tX ⟨true, ["x"]⟩ (Node.new fnX) rfl

/-! ## Lemmas about `insertAt` (the net effect of `Tree::insert_node`) -/

/-- Inserting below `n` adds the new node's `total_count` to `n`'s own
count (the `add_child` increment at the parent plus the `RootIter` walk
above it). -/
theorem insertAt_count (comps : List String) (n child n' : Node)
    (h : n.insertAt comps child = some n') :
    n'.count = n.count + child.total_count := by
  cases comps with
  | nil =>
    cases n with
    | mk v cnt cs =>
      simp only [Node.insertAt, Option.some.injEq] at h
      subst h
      rfl
  | cons c rest =>
    cases n with
    | mk v cnt cs =>
      cases cs with
      | nil => simp [Node.insertAt, Node.children] at h
      | cons head others =>
        simp only [Node.insertAt, Node.children, child_match_const, if_true,
          Option.map_eq_some'] at h
        obtain ⟨head', _, h2⟩ := h
        subst h2
        rfl

/-- `Node.WF` of a freshly wrapped value. -/
theorem WF_new (v : FileNode) : Node.WF (Node.new v) :=
  Node.WF.mk v 0 [] rfl (by simp)

/-- The count invariant is preserved by a single insertion of a
well-formed subtree. -/
theorem insertAt_WF (comps : List String) :
    ∀ (n child n' : Node), Node.WF n → Node.WF child →
      n.insertAt comps child = some n' → Node.WF n' := by
  induction comps with
  | nil =>
    intro n child n' hn hc h
    cases n with
    | mk v cnt cs =>
      simp only [Node.insertAt, Option.some.injEq] at h
      subst h
      cases hn with
      | mk _ _ _ hsum hkids =>
        refine Node.WF.mk _ _ _ ?_ ?_
        · simp only [List.map_append, List.sum_append, List.map_cons, List.sum_cons,
            List.map_nil, List.sum_nil, Node.total_count, Node.count_mk, Node.children_mk]
          omega
        · intro x hx
          rcases List.mem_append.mp hx with hx | hx
          · exact hkids x hx
          · simp only [List.mem_singleton] at hx
            subst hx
            exact hc
  | cons c rest ih =>
    intro n child n' hn hc h
    cases n with
    | mk v cnt cs =>
      cases cs with
      | nil => simp [Node.insertAt, Node.children] at h
      | cons head others =>
        simp only [Node.insertAt, Node.children, child_match_const, if_true,
          Option.map_eq_some'] at h
        obtain ⟨head', h1, h2⟩ := h
        subst h2
        cases hn with
        | mk _ _ _ hsum hkids =>
          have hwfhead' := ih head child head' (hkids head (by simp)) hc h1
          have hcount := insertAt_count rest head child head' h1
          refine Node.WF.mk _ _ _ ?_ ?_
          · simp only [List.map_cons, List.sum_cons] at hsum ⊢
            simp only [hcount, Node.total_count, Node.count_mk] at *
            omega
          · intro x hx
            rcases List.mem_cons.mp hx with hx | hx
            · subst hx; exact hwfhead'
            · exact hkids x (by simp [hx])

/-- Every node on the resolution chain of the insertion parent gains
exactly the new node's `total_count`. -/
theorem insertAt_resolve_take (comps : List String) :
    ∀ (n child n' : Node), n.insertAt comps child = some n' →
      ∀ k, k ≤ comps.length →
        (n'.resolve (comps.take k)).map Node.count =
          (n.resolve (comps.take k)).map (fun m => m.count + child.total_count) := by
  induction comps with
  | nil =>
    intro n child n' h k hk
    cases Nat.le_zero.mp hk
    simp only [List.take_nil, Node.resolve, Option.map_some']
    rw [insertAt_count [] n child n' h]
  | cons c rest ih =>
    intro n child n' h k hk
    cases n with
    | mk v cnt cs =>
      cases cs with
      | nil => simp [Node.insertAt, Node.children] at h
      | cons head others =>
        simp only [Node.insertAt, Node.children, child_match_const, if_true,
          Option.map_eq_some'] at h
        obtain ⟨head', h1, h2⟩ := h
        subst h2
        cases k with
        | zero =>
          simp [Node.resolve, Node.count, Node.total_count]
        | succ k =>
          have hk' : k ≤ rest.length := Nat.succ_le_succ_iff.mp (by simpa using hk)
          simpa [Node.resolve, Node.children, child_match_const]
            using ih head child head' h1 k hk'

/-- After inserting under a childless resolved parent, looking up the
parent path extended by any single component finds exactly the new
node (resolution takes the first — here only — child at the final
level). -/
theorem insertAt_resolve_append (comps : List String) :
    ∀ (n child n' p : Node) (name : String),
      n.insertAt comps child = some n' →
      n.resolve comps = some p → p.children = [] →
      n'.resolve (comps ++ [name]) = some child := by
  induction comps with
  | nil =>
    intro n child n' p name h hres hemp
    cases n with
    | mk v cnt cs =>
      simp only [Node.resolve, Option.some.injEq] at hres
      subst hres
      simp only [Node.children] at hemp
      subst hemp
      simp only [Node.insertAt, Option.some.injEq, List.nil_append, Node.children] at h
      subst h
      simp [Node.resolve, Node.children, child_match_const]
  | cons c rest ih =>
    intro n child n' p name h hres hemp
    cases n with
    | mk v cnt cs =>
      cases cs with
      | nil => simp [Node.insertAt, Node.children] at h
      | cons head others =>
        simp only [Node.insertAt, Node.children, child_match_const, if_true,
          Option.map_eq_some'] at h
        obtain ⟨head', h1, h2⟩ := h
        subst h2
        simp only [Node.resolve, Node.children, child_match_const, if_true] at hres
        simpa [Node.resolve, Node.children, child_match_const]
          using ih head child head' p name h1 hres hemp

/-- A successful `Tree::insert` preserves the count invariant. -/
theorem insert_WF (t : Tree) (parent : PathBuf) (v : FileNode) (res : Tree × Node)
    (hwf : Tree.WF t) (h : Tree.insert t parent v = .ok res) : Tree.WF res.1 := by
  by_cases hab : parent.absolute = true
  · cases hr : t.root with
    | none => simp [Tree.insert, Tree.insert_node, hab, hr] at h
    | some r =>
      cases hins : r.insertAt parent.comps (Node.new v) with
      | none => simp [Tree.insert, Tree.insert_node, hab, hr, hins] at h
      | some r' =>
        simp only [Tree.insert, Tree.insert_node, hab, if_true, hr, hins,
          Except.ok.injEq] at h
        subst h
        intro rr hrr
        simp only [Option.some.injEq] at hrr
        subst hrr
        exact insertAt_WF parent.comps r (Node.new v) r' (hwf r hr) (WF_new v) hins
  · simp [Tree.insert, Tree.insert_node, hab] at h

/-- Claim C3, counterexample: after the operation sequence
insert `a`, insert `b` (both under `/`), remove `/a`, the root's
`count` is still 2 while `Σ total_count(child)` over its remaining
children is 1 — `Tree::remove` detaches the child but never updates any
ancestor's count, so the invariant fails after a sequence containing a
remove. -/
theorem remove_breaks_count_invariant :
    (Tree.remove tAB ⟨true, ["a"]⟩).toOption.map
        (fun res => res.1.root.map (fun r =>
          (r.count, (r.children.map (fun c => c.count + 1)).sum))) =
      some (some (2, 1)) ∧ (2 : Nat) ≠ 1 :=
  ⟨rfl, by decide⟩

/-- Claim C3 (corrected): the invariant
`count(node) = Σ total_count(child)` holds for every node after every
sequence of *insert* operations (each insertion of a fresh node adds
exactly 1 — its `total_count` — to the count of each node on the
parent's resolution chain, i.e. each ancestor), but `Tree::remove` does
not maintain it: removal detaches children without updating any
ancestor count. -/
theorem insert_preserves_count_invariant :
    (∀ t ops, Tree.WF t → Tree.WF (Tree.insert_all t ops)) ∧
    (∀ t parent v t' nd, Tree.insert t parent v = .ok (t', nd) →
        ∀ k, k ≤ parent.comps.length →
          (t'.get_node ⟨parent.absolute, parent.comps.take k⟩).map Node.count =
            (t.get_node ⟨parent.absolute, parent.comps.take k⟩).map
              (fun m => m.count + 1)) := by
  constructor
  · intro t ops
    induction ops generalizing t with
    | nil => intro h; simpa [Tree.insert_all] using h
    | cons op rest ih =>
      intro h
      simp only [Tree.insert_all, List.foldl_cons]
      cases hop : Tree.insert t op.1 op.2 with
      | ok res =>
        simpa [Tree.insert_all] using ih res.1 (insert_WF t op.1 op.2 res h hop)
      | error e =>
        simpa [Tree.insert_all] using ih t h
  · intro t parent v t' nd h k hk
    by_cases hab : parent.absolute = true
    · cases hr : t.root with
      | none => simp [Tree.insert, Tree.insert_node, hab, hr] at h
      | some r =>
        cases hins : r.insertAt parent.comps (Node.new v) with
        | none => simp [Tree.insert, Tree.insert_node, hab, hr, hins] at h
        | some r' =>
          simp only [Tree.insert, Tree.insert_node, hab, if_true, hr, hins,
            Except.ok.injEq, Prod.mk.injEq] at h
          obtain ⟨h1, _⟩ := h
          subst h1
          have := insertAt_resolve_take parent.comps r (Node.new v) r' hins k hk
          simpa [Tree.get_node, hab, hr, Node.total_count, Node.new] using this
    · simp [Tree.insert, Tree.insert_node, hab] at h

/-- Witness for `insert_preserves_count_invariant`: the invariant holds
after inserting `a` then `b` under the fresh root, and that insertion
of `a` bumps the root's count by exactly 1. -/
theorem insert_preserves_count_invariant_witness :
    Tree.WF tAB ∧
    ((Tree.insert_all t0 [(rootPathBuf, fnA)]).get_node rootPathBuf).map Node.count =
      (t0.get_node rootPathBuf).map (fun m => m.count + 1) := by
  constructor
  · exact insert_preserves_count_invariant.1 t0 [(rootPathBuf, fnA), (rootPathBuf, fnB)]
      (fun r hr => by
        cases hr
        exact WF_new fnRoot)
  · exact insert_preserves_count_invariant.2 t0 rootPathBuf fnA
      (Tree.insert_all t0 [(rootPathBuf, fnA)]) (Node.new fnA) rfl 0 (by decide)

/-- Claim C5, counterexample: in the tree whose root has the single
child `x`, inserting `y` under `/` and then looking up `/y` does not
return the inserted entry: `get_node` ignores the name comparison and
returns the first child, so the lookup yields the `x` node's entry,
which differs from `y`. -/
theorem lookup_returns_first_child_not_inserted :
    (Tree.insert tX rootPathBuf fnY).toOption.map
        (fun res => (res.1.get_node ⟨true, ["y"]⟩).map Node.value) =
      some (some fnX) ∧ fnX ≠ fnY :=
  ⟨rfl, by decide⟩

/-- Claim C5 (corrected): `get_node` does decompose the path into
components, but the per-component match against the children is
discarded (`.is_ok()`), so resolution takes the first child at every
level.  The insert/lookup round-trip therefore holds when the resolved
parent had no child yet (the new node is then the first — only — child
at the final level, under any name component): the looked-up node's
entry equals the inserted one. -/
theorem insert_lookup_roundtrip_first_child :
    ∀ (t : Tree) (parent : PathBuf) (p : Node) (v : FileNode) (name : String)
      (t' : Tree) (nd : Node),
      t.get_node parent = some p → p.children = [] →
      Tree.insert t parent v = .ok (t', nd) →
      nd.value = v ∧
      (t'.get_node (parent.join name)).map Node.value = some v := by
  intro t parent p v name t' nd hres hemp h
  by_cases hab : parent.absolute = true
  · cases hr : t.root with
    | none => simp [Tree.insert, Tree.insert_node, hab, hr] at h
    | some r =>
      cases hins : r.insertAt parent.comps (Node.new v) with
      | none => simp [Tree.insert, Tree.insert_node, hab, hr, hins] at h
      | some r' =>
        simp only [Tree.insert, Tree.insert_node, hab, if_true, hr, hins,
          Except.ok.injEq, Prod.mk.injEq] at h
        obtain ⟨h1, h2⟩ := h
        subst h1
        subst h2
        refine ⟨rfl, ?_⟩
        simp only [Tree.get_node, hab, hr, if_true] at hres
        have h3 := insertAt_resolve_append parent.comps r (Node.new v) r' p name hins hres hemp
        simp only [Tree.get_node, PathBuf.join, hab, if_true, h3, Option.map_some']
        rfl
  · simp [Tree.insert, Tree.insert_node, hab] at h

/-- Witness for `insert_lookup_roundtrip_first_child`: inserting `a`
under the childless root of the fresh tree and looking up `/a` returns
the inserted entry. -/
theorem insert_lookup_roundtrip_first_child_witness :
    (Node.new fnA).value = fnA ∧
    ((Tree.insert_all t0 [(rootPathBuf, fnA)]).get_node (rootPathBuf.join "a")).map
        Node.value = some fnA :=
  insert_lookup_roundtrip_first_child t0 rootPathBuf (Node.new fnRoot) fnA "a"
    (Tree.insert_all t0 [(rootPathBuf, fnA)]) (Node.new fnA) rfl rfl rfl

/-! ## Lemmas about `removeAt` (the tree surgery of `Tree::remove`) -/

theorem removeAt_nil (n : Node) : n.removeAt [] = some (n, n) := rfl

theorem removeAt_no_children (v : FileNode) (cnt : Nat) (c : String) (rest : List String) :
    (Node.mk v cnt []).removeAt (c :: rest) = none := rfl

theorem removeAt_single (v : FileNode) (cnt : Nat) (head : Node) (others : List Node)
    (c : String) :
    (Node.mk v cnt (head :: others)).removeAt [c] =
      some (.mk v cnt ((head :: others).filter (fun x => retain_keep x head)), head) := rfl

theorem removeAt_cons₂ (v : FileNode) (cnt : Nat) (head : Node) (others : List Node)
    (c : String) (rest : List String) (hne : rest ≠ []) :
    (Node.mk v cnt (head :: others)).removeAt (c :: rest) =
      (head.removeAt rest).map (fun res => (.mk v cnt (res.1 :: others), res.2)) := by
  cases rest with
  | nil => exact absurd rfl hne
  | cons r rs => rfl

/-- `removeAt` succeeds exactly when resolution does. -/
theorem removeAt_isSome_iff_resolve (comps : List String) :
    ∀ n : Node, (n.removeAt comps).isSome = (n.resolve comps).isSome := by
  induction comps with
  | nil => intro n; simp [removeAt_nil, Node.resolve]
  | cons c rest ih =>
    intro n
    cases n with
    | mk v cnt cs =>
      cases cs with
      | nil => simp [removeAt_no_children, Node.resolve]
      | cons head others =>
        cases rest with
        | nil => simp [removeAt_single, Node.resolve, child_match_const]
        | cons r rs =>
          simpa [removeAt_cons₂ v cnt head others c (r :: rs) (by simp),
            Node.resolve, child_match_const] using ih head

/-- Removal never changes the root's count or payload (in particular
its size): `Tree::remove` performs no aggregation walk. -/
theorem removeAt_preserves_root (comps : List String) (n n' nd : Node)
    (h : n.removeAt comps = some (n', nd)) :
    n'.count = n.count ∧ n'.value = n.value := by
  cases comps with
  | nil =>
    rw [removeAt_nil] at h
    simp only [Option.some.injEq, Prod.mk.injEq] at h
    obtain ⟨h1, _⟩ := h
    subst h1
    exact ⟨rfl, rfl⟩
  | cons c rest =>
    cases n with
    | mk v cnt cs =>
      cases cs with
      | nil => rw [removeAt_no_children] at h; exact absurd h (by simp)
      | cons head others =>
        cases rest with
        | nil =>
          rw [removeAt_single] at h
          simp only [Option.some.injEq, Prod.mk.injEq] at h
          obtain ⟨h1, _⟩ := h
          subst h1
          exact ⟨rfl, rfl⟩
        | cons r rs =>
          rw [removeAt_cons₂ v cnt head others c (r :: rs) (by simp)] at h
          simp only [Option.map_eq_some'] at h
          obtain ⟨⟨head', nd'⟩, _, h2⟩ := h
          simp only [Prod.mk.injEq] at h2
          obtain ⟨h2, _⟩ := h2
          subst h2
          exact ⟨rfl, rfl⟩

/-- No node on the strict ancestor chain of the removed node changes
its count or payload. -/
theorem removeAt_ancestors_unchanged (comps : List String) :
    ∀ (n n' nd : Node), n.removeAt comps = some (n', nd) →
      ∀ k, k < comps.length →
        (n'.resolve (comps.take k)).map (fun m => (m.count, m.value)) =
          (n.resolve (comps.take k)).map (fun m => (m.count, m.value)) := by
  induction comps with
  | nil => intro n n' nd h k hk; simp at hk
  | cons c rest ih =>
    intro n n' nd h k hk
    cases n with
    | mk v cnt cs =>
      cases cs with
      | nil => rw [removeAt_no_children] at h; exact absurd h (by simp)
      | cons head others =>
        cases rest with
        | nil =>
          have hk0 : k = 0 := Nat.lt_one_iff.mp (by simpa using hk)
          subst hk0
          rw [removeAt_single] at h
          simp only [Option.some.injEq, Prod.mk.injEq] at h
          obtain ⟨h1, _⟩ := h
          subst h1
          simp [Node.resolve]
        | cons r rs =>
          rw [removeAt_cons₂ v cnt head others c (r :: rs) (by simp)] at h
          simp only [Option.map_eq_some'] at h
          obtain ⟨⟨head', nd'⟩, h1, h2⟩ := h
          simp only [Prod.mk.injEq] at h2
          obtain ⟨h2, h3⟩ := h2
          subst h2
          subst h3
          cases k with
          | zero => simp [Node.resolve]
          | succ k =>
            have hk' : k < (r :: rs).length := Nat.succ_lt_succ_iff.mp (by simpa using hk)
            simpa [Node.resolve, child_match_const]
              using ih head head' nd' h1 k hk'

/-- Detachment: resolving the removed node's parent before and after
the removal, the parent keeps its payload and count, and its children
are exactly the old children filtered by the `retain` predicate
(stored path different from the removed node's stored path). -/
theorem removeAt_detaches (comps : List String) :
    ∀ (last : String) (n n' nd p p' : Node),
      n.removeAt (comps ++ [last]) = some (n', nd) →
      n.resolve comps = some p → n'.resolve comps = some p' →
      p'.value = p.value ∧ p'.count = p.count ∧
      p'.children = p.children.filter (fun c => retain_keep c nd) := by
  induction comps with
  | nil =>
    intro last n n' nd p p' h hp hp'
    cases n with
    | mk v cnt cs =>
      simp only [Node.resolve, Option.some.injEq] at hp
      subst hp
      cases cs with
      | nil =>
        rw [List.nil_append, removeAt_no_children] at h
        exact absurd h (by simp)
      | cons head others =>
        rw [List.nil_append, removeAt_single] at h
        simp only [Option.some.injEq, Prod.mk.injEq] at h
        obtain ⟨h1, h2⟩ := h
        subst h1
        subst h2
        simp only [Node.resolve, Option.some.injEq] at hp'
        subst hp'
        exact ⟨rfl, rfl, rfl⟩
  | cons c rest ih =>
    intro last n n' nd p p' h hp hp'
    cases n with
    | mk v cnt cs =>
      cases cs with
      | nil =>
        rw [List.cons_append, removeAt_no_children] at h
        exact absurd h (by simp)
      | cons head others =>
        rw [List.cons_append,
          removeAt_cons₂ v cnt head others c (rest ++ [last]) (by simp)] at h
        simp only [Option.map_eq_some'] at h
        obtain ⟨⟨head', nd'⟩, h1, h2⟩ := h
        simp only [Prod.mk.injEq] at h2
        obtain ⟨h2, h3⟩ := h2
        subst h2
        subst h3
        simp only [Node.resolve, Node.children_mk, child_match_const, if_true] at hp hp'
        exact ih last head head' nd' p p' h1 hp hp'

/-- Claim C4, counterexample: in the tree with root `/` and children
`a`, `b`, removing `/a` succeeds and detaches `a`, but a subsequent
`get_node("/a")` returns the `b` node (resolution takes the first
child, names ignored) rather than `None`, and the root's count is
still 2 instead of decreasing by the removed subtree's
`total_count = 1`. -/
theorem remove_leaves_count_and_lookup :
    (Tree.remove tAB ⟨true, ["a"]⟩).toOption.map
        (fun res => (res.1.root.map Node.count,
          (res.1.get_node ⟨true, ["a"]⟩).map (fun n => n.value.path))) =
      some (some 2, some ⟨true, ["b"]⟩) ∧
    (⟨true, ["b"]⟩ : PathBuf) ≠ ⟨true, ["a"]⟩ :=
  ⟨rfl, by decide⟩

/-- Claim C4 (corrected): `remove(path)` fails with the error
"`path` not found" exactly when the path does not resolve; when it
succeeds it detaches from the resolved node's parent every child whose
stored path equals the removed node's stored path, but no ancestor's
size or count is adjusted (root and whole strict ancestor chain keep
count and payload unchanged), and a subsequent `get_node(path)` may
still return a sibling since resolution ignores names. -/
theorem remove_detaches_without_aggregation :
    (∀ t key, (Tree.remove t key).toOption.isSome = (t.get_node key).isSome) ∧
    (∀ t key, t.get_node key = none →
        Tree.remove t key = .error (key.display ++ " not found")) ∧
    (∀ t key t' nd, Tree.remove t key = .ok (t', nd) →
        t'.root.map (fun r => (r.count, r.value.size)) =
          t.root.map (fun r => (r.count, r.value.size))) ∧
    (∀ (comps : List String) (n n' nd : Node),
        n.removeAt comps = some (n', nd) →
        ∀ k, k < comps.length →
          (n'.resolve (comps.take k)).map (fun m => (m.count, m.value)) =
            (n.resolve (comps.take k)).map (fun m => (m.count, m.value))) ∧
    (∀ (comps : List String) (last : String) (n n' nd p p' : Node),
        n.removeAt (comps ++ [last]) = some (n', nd) →
        n.resolve comps = some p → n'.resolve comps = some p' →
        p'.count = p.count ∧
        p'.children = p.children.filter (fun c => retain_keep c nd)) := by
  refine ⟨?_, ?_, ?_, ?_, ?_⟩
  · intro t key
    by_cases hab : key.absolute = true
    · cases hr : t.root with
      | none => simp [Tree.remove, Tree.get_node, hab, hr, Except.toOption]
      | some r =>
        cases hrem : r.removeAt key.comps with
        | none =>
          have := removeAt_isSome_iff_resolve key.comps r
          rw [hrem] at this
          simp [Tree.remove, Tree.get_node, hab, hr, hrem, ← this, Except.toOption]
        | some res =>
          have := removeAt_isSome_iff_resolve key.comps r
          rw [hrem] at this
          simp [Tree.remove, Tree.get_node, hab, hr, hrem, ← this, Except.toOption]
    · simp [Tree.remove, Tree.get_node, hab, Except.toOption]
  · intro t key hnone
    by_cases hab : key.absolute = true
    · cases hr : t.root with
      | none => simp [Tree.remove, hab, hr]
      | some r =>
        simp only [Tree.get_node, hab, if_true, hr] at hnone
        cases hrem : r.removeAt key.comps with
        | none => simp [Tree.remove, hab, hr, hrem]
        | some res =>
          have := removeAt_isSome_iff_resolve key.comps r
          rw [hrem, hnone] at this
          simp at this
    · simp [Tree.remove, hab]
  · intro t key t' nd h
    by_cases hab : key.absolute = true
    · cases hr : t.root with
      | none => simp [Tree.remove, hab, hr] at h
      | some r =>
        cases hrem : r.removeAt key.comps with
        | none => simp [Tree.remove, hab, hr, hrem] at h
        | some res =>
          simp only [Tree.remove, hab, if_true, hr, hrem, Except.ok.injEq,
            Prod.mk.injEq] at h
          obtain ⟨h1, h2⟩ := h
          subst h1
          have hroot := removeAt_preserves_root key.comps r res.1 res.2 (by rw [hrem])
          simp [hroot.1, hroot.2, hr]
    · simp [Tree.remove, hab] at h
  · intro comps n n' nd h k hk
    exact removeAt_ancestors_unchanged comps n n' nd h k hk
  · intro comps last n n' nd p p' h hp hp'
    have hd := removeAt_detaches comps last n n' nd p p' h hp hp'
    exact ⟨hd.2.1, hd.2.2⟩

/-- Witness for `remove_detaches_without_aggregation`: removing the
missing `/nope` from the fresh tree produces the "not found" error;
removing `/a` from the two-child tree keeps the root's count and size;
and the detachment at the root filters out exactly the `a` child. -/
theorem remove_detaches_without_aggregation_witness :
    Tree.remove t0 ⟨true, ["nope"]⟩ = .error ("/nope not found") ∧
    ((⟨some (Node.mk fnRoot 2 [Node.new fnB])⟩ : Tree).root.map
        (fun r => (r.count, r.value.size)) =
      tAB.root.map (fun r => (r.count, r.value.size))) ∧
    (((Node.mk fnRoot 2 [Node.new fnB]).resolve (["a"].take 0)).map
        (fun m => (m.count, m.value)) =
      ((Node.mk fnRoot 2 [Node.new fnA, Node.new fnB]).resolve (["a"].take 0)).map
        (fun m => (m.count, m.value))) ∧
    ((Node.mk fnRoot 2 [Node.new fnB]).count =
        (Node.mk fnRoot 2 [Node.new fnA, Node.new fnB]).count ∧
      (Node.mk fnRoot 2 [Node.new fnB]).children =
        (Node.mk fnRoot 2 [Node.new fnA, Node.new fnB]).children.filter
          (fun c => retain_keep c (Node.new fnA))) := by
  refine ⟨?_, ?_, ?_, ?_⟩
  · exact remove_detaches_without_aggregation.2.1 t0 ⟨true, ["nope"]⟩ rfl
  · exact remove_detaches_without_aggregation.2.2.1 tAB ⟨true, ["a"]⟩
      ⟨some (Node.mk fnRoot 2 [Node.new fnB])⟩ (Node.new fnA) rfl
  · exact remove_detaches_without_aggregation.2.2.2.1 ["a"]
      (Node.mk fnRoot 2 [Node.new fnA, Node.new fnB])
      (Node.mk fnRoot 2 [Node.new fnB]) (Node.new fnA) rfl 0 (by decide)
  · exact remove_detaches_without_aggregation.2.2.2.2 [] "a"
      (Node.mk fnRoot 2 [Node.new fnA, Node.new fnB])
      (Node.mk fnRoot 2 [Node.new fnB]) (Node.new fnA)
      (Node.mk fnRoot 2 [Node.new fnA, Node.new fnB])
      (Node.mk fnRoot 2 [Node.new fnB]) rfl rfl rfl

end Cleaner
